import Mathlib

/-!
Verification development for the precessing-surrogate evaluation module
(`gwsurrogate/new/precessing_surrogate.py`).

The Python module is shallowly embedded below.  Floating-point arrays become
functions into `ℝ` (or `ℚ` where exact decidable arithmetic is wanted and the
source performs only field operations and comparisons); numpy's elementwise
vectorization over the trailing time axis is modelled per time sample; a
raised Python exception becomes an `Except` error value.  Functions supplied
by the compiled extension `gwsurrogate.precessing_utils._utils`
(`wigner_coef`, `binom`, `eval_fit`, `assemble_dydt`, `normalize_y`,
`ab4_dy`, `get_ds_fit_x`) and by scipy's spline interpolator are not part of
this repository's sources; they enter the embedding as explicit function
parameters, so every theorem below holds for all choices of those externals.
-/

namespace PrecSur

/-- A quaternion `(w, x, y, z)`, i.e. one time sample of the `(4, N)`
quaternion arrays of the Python module. -/
abbrev Quat := ℝ × ℝ × ℝ × ℝ

/-- Embedding of `multiplyQuats(q1, q2)` (Hamilton product, one time
sample): each component is transcribed from the four rows of the
`np.array` in the source. -/
noncomputable def multiplyQuats (q1 q2 : Quat) : Quat :=
  (q1.1 * q2.1 - q1.2.1 * q2.2.1 - q1.2.2.1 * q2.2.2.1 - q1.2.2.2 * q2.2.2.2,
   q1.2.2.1 * q2.2.2.2 - q2.2.2.1 * q1.2.2.2 + q1.1 * q2.2.1 + q2.1 * q1.2.1,
   q1.2.2.2 * q2.2.1 - q2.2.2.2 * q1.2.1 + q1.1 * q2.2.2.1 + q2.1 * q1.2.2.1,
   q1.2.1 * q2.2.2.1 - q2.2.1 * q1.2.2.1 + q1.1 * q2.2.2.2 + q2.1 * q1.2.2.2)

/-- Embedding of `quatInv(q)`: `qConj = -q; qConj[0] = -qConj[0]`, then
divide by `normSqr = multiplyQuats(q, qConj)[0]`. -/
noncomputable def quatInv (q : Quat) : Quat :=
  let qConj : Quat := (q.1, -q.2.1, -q.2.2.1, -q.2.2.2)
  let normSqr : ℝ := (multiplyQuats q qConj).1
  (qConj.1 / normSqr, qConj.2.1 / normSqr,
   qConj.2.2.1 / normSqr, qConj.2.2.2 / normSqr)

/-- The identity quaternion `(1, 0, 0, 0)`. -/
def idQuat : Quat := (1, 0, 0, 0)

/-- `normSqr` of a quaternion, as computed inside `quatInv`. -/
noncomputable def quatNormSqr (q : Quat) : ℝ :=
  (multiplyQuats q (q.1, -q.2.1, -q.2.2.1, -q.2.2.2)).1

theorem quatNormSqr_eq (q : Quat) :
    quatNormSqr q = q.1 ^ 2 + q.2.1 ^ 2 + q.2.2.1 ^ 2 + q.2.2.2 ^ 2 := by
  simp only [quatNormSqr, multiplyQuats]
  ring

/-- Claim C8: for every quaternion `q` with nonzero norm, the Hamilton
product of `q` with its inverse is the identity quaternion:
`multiplyQuats(q, quatInv(q)) = (1, 0, 0, 0)` exactly over real
arithmetic. -/
theorem multiplyQuats_quatInv (q : Quat) (h : quatNormSqr q ≠ 0) :
    multiplyQuats q (quatInv q) = idQuat := by
  obtain ⟨a, b, c, d⟩ := q
  have hn : a ^ 2 + b ^ 2 + c ^ 2 + d ^ 2 ≠ 0 := by
    have := quatNormSqr_eq (a, b, c, d)
    simpa [this] using h
  simp only [multiplyQuats, quatInv, idQuat, Prod.mk.injEq]
  set s := a * a - b * -b - c * -c - d * -d with hsdef
  have hs : s ≠ 0 := by rw [hsdef]; intro hz; apply hn; linear_combination hz
  refine ⟨?_, ?_, ?_, ?_⟩ <;> field_simp [hs] <;> (try rw [hsdef]) <;> (try ring)

/-- Witness for C8 at the concrete quaternion `(1, 2, 3, 4)`. -/
theorem multiplyQuats_quatInv_witness :
    quatNormSqr ((1 : ℝ), (2 : ℝ), (3 : ℝ), (4 : ℝ)) ≠ 0 ∧
      multiplyQuats ((1 : ℝ), (2 : ℝ), (3 : ℝ), (4 : ℝ))
        (quatInv ((1 : ℝ), (2 : ℝ), (3 : ℝ), (4 : ℝ))) = idQuat := by
  have h : quatNormSqr ((1 : ℝ), (2 : ℝ), (3 : ℝ), (4 : ℝ)) ≠ 0 := by
    rw [quatNormSqr_eq]; norm_num
  exact ⟨h, multiplyQuats_quatInv _ h⟩

/-! ## Spin rotation between the coprecessing and coorbital frames -/

/-- One time sample of a spin series (a row of the `(N, 3)` array `chi`). -/
abbrev Spin3 := ℝ × ℝ × ℝ

/-- Embedding of `rotate_spin(chi, phase)`, per time sample: with
`sp = sin(phase)`, `cp = cos(phase)`, the result is
`(v0*cp + v1*sp, v1*cp - v0*sp, v2)` (the third component is the
untouched copy `res = 1.*v`). -/
noncomputable def rotate_spin (chi : Spin3) (phase : ℝ) : Spin3 :=
  let sp := Real.sin phase
  let cp := Real.cos phase
  (chi.1 * cp + chi.2.1 * sp, chi.2.1 * cp - chi.1 * sp, chi.2.2)

/-- Embedding of `coorb_spins_from_copr_spins`, per time sample. -/
noncomputable def coorb_spins_from_copr_spins (chiA_copr chiB_copr : Spin3) (orbphase : ℝ) :
    Spin3 × Spin3 :=
  (rotate_spin chiA_copr orbphase, rotate_spin chiB_copr orbphase)

/-- Euclidean norm of a 3-vector sample. -/
noncomputable def spinNorm (chi : Spin3) : ℝ :=
  Real.sqrt (chi.1 ^ 2 + chi.2.1 ^ 2 + chi.2.2 ^ 2)

/-- Claim C6: the coprecessing-to-coorbital spin transformation is a 2D
in-plane rotation.  For every spin sample and every phase (and for both
spins, as mapped by `coorb_spins_from_copr_spins`): the z component is
unchanged, the first two components map to
`(x*cos p + y*sin p, y*cos p - x*sin p)`, and the Euclidean norm of
the 3-vector sample is preserved. -/
theorem rotate_spin_inplane (chiA chiB : Spin3) (p : ℝ) :
    coorb_spins_from_copr_spins chiA chiB p =
      (rotate_spin chiA p, rotate_spin chiB p) ∧
    ∀ chi : Spin3,
      rotate_spin chi p =
        (chi.1 * Real.cos p + chi.2.1 * Real.sin p,
         chi.2.1 * Real.cos p - chi.1 * Real.sin p, chi.2.2) ∧
      spinNorm (rotate_spin chi p) = spinNorm chi := by
  refine ⟨rfl, fun chi => ⟨rfl, ?_⟩⟩
  obtain ⟨x, y, z⟩ := chi
  simp only [spinNorm, rotate_spin]
  have hsc := Real.sin_sq_add_cos_sq p
  congr 1
  nlinarith [hsc]

/-! ## Time-grid validation in `DynamicsSurrogate.__init__` -/

/-- `self.diff_t = np.diff(self.t)` on a grid given as a function of the
node index.  Exact rational arithmetic (`ℚ`) stands in for the float
grid. -/
def diff_t (t : ℕ → ℚ) (i : ℕ) : ℚ := t (i + 1) - t i

/-- Embedding of the time-array validation loop of
`DynamicsSurrogate.__init__`:
`for i in range(3): if not diff_t[2*i] == diff_t[2*i+1]: raise`.
Returns `Except.error` exactly when the Python code raises. -/
def validateTimeArray (t : ℕ → ℚ) : Except String Unit :=
  if (List.range 3).all (fun i => diff_t t (2 * i) == diff_t t (2 * i + 1)) then
    Except.ok ()
  else
    Except.error "ab4 needs to do 3 steps of RK4 integration!"

/-- Claim C2: construction raises the RK4-pairing error unless the first
three pairs of consecutive grid intervals are equal; for every grid
satisfying the three equalities, that error is not raised. -/
theorem validateTimeArray_iff (t : ℕ → ℚ) :
    validateTimeArray t = Except.ok () ↔
      (t 2 - t 1 = t 1 - t 0 ∧ t 4 - t 3 = t 3 - t 2 ∧ t 6 - t 5 = t 5 - t 4) := by
  unfold validateTimeArray diff_t
  constructor
  · intro h
    by_cases hc :
        (List.range 3).all (fun i => diff_t t (2 * i) == diff_t t (2 * i + 1))
    · have := hc
      simp only [List.all_eq_true, List.mem_range, beq_iff_eq, diff_t] at this
      have h0 := this 0 (by norm_num)
      have h1 := this 1 (by norm_num)
      have h2 := this 2 (by norm_num)
      norm_num at h0 h1 h2
      exact ⟨h0.symm, h1.symm, h2.symm⟩
    · simp only [diff_t] at hc
      rw [if_neg hc] at h
      exact absurd h (by simp)
  · rintro ⟨h0, h1, h2⟩
    have hc :
        (List.range 3).all (fun i => diff_t t (2 * i) == diff_t t (2 * i + 1)) := by
      simp only [List.all_eq_true, List.mem_range, beq_iff_eq, diff_t]
      intro i hi
      interval_cases i <;> norm_num <;> linarith
    simp only [diff_t] at hc
    rw [if_pos hc]

/-! ## Wigner-D rotation of mode arrays (`_wignerD_matrices`, `rotateWaveform`) -/

/-- The `{5: 2, 12: 3, 21: 4, 32: 5, 45: 6, 60: 7, 77: 8}[len(h)]` lookup of
`rotateWaveform`; `none` models the KeyError raised on any other length. -/
def ellMaxOfNModes (n : ℕ) : Option ℕ :=
  if n = 5 then some 2
  else if n = 12 then some 3
  else if n = 21 then some 4
  else if n = 32 then some 5
  else if n = 45 then some 6
  else if n = 60 then some 7
  else if n = 77 then some 8
  else none

/-- One entry of `_wignerD_matrices(q, ellMax)` at one time sample.  The
source stores the entry for `(m, mp)` at `matrices[ell-2][ell+m, ell+mp]`;
here it is indexed by `(ell, m, mp)` directly.  `wc` and `bn` are the
external `_utils.wigner_coef` and `_utils.binom`.  The three branches are
the index sets `i2` (`ra` small), `i3` (`ra` not small, `rb` small) and
`i1` (neither small); the precomputed power tables `ra_pows`, `rb_pows`,
`abs_raSqr_pows`, `ratio_pows` of the source are written as direct integer
powers of the same bases. -/
noncomputable def wignerDentry (wc : ℕ → ℤ → ℤ → ℝ) (bn : ℤ → ℤ → ℝ)
    (q : Quat) (ell : ℕ) (m mp : ℤ) : ℂ :=
  let ra : ℂ := ⟨q.1, q.2.2.2⟩
  let rb : ℂ := ⟨q.2.2.1, q.2.1⟩
  if Complex.abs ra < 1e-12 then
    if mp = -m then
      (if ((ell : ℤ) + m) % 2 = 1 then rb ^ (2 * m) else -(rb ^ (2 * m)))
    else 0
  else if Complex.abs rb < 1e-12 then
    if mp = m then ra ^ (2 * m) else 0
  else
    let absRRatioSquared : ℝ := (Complex.abs rb / Complex.abs ra) ^ 2
    let factor : ℂ := ((wc ell mp m : ℝ) : ℂ) * ra ^ (m + mp) * rb ^ (m - mp) *
      (((Complex.abs ra ^ 2 : ℝ) : ℂ)) ^ ((ell : ℤ) - m)
    let s : ℝ := ∑ rho in Finset.Icc (max 0 (mp - m)) (min ((ell : ℤ) + mp) ((ell : ℤ) - m)),
      ((-1 : ℝ) ^ rho) * (bn ((ell : ℤ) + mp) rho * bn ((ell : ℤ) - mp) ((ell : ℤ) - rho - m)) *
        absRRatioSquared ^ rho
    factor * (s : ℂ)

/-- The list of `m` values `range(-ell, ell+1)`, in source order. -/
def mRange (ell : ℕ) : List ℤ :=
  (List.range (2 * ell + 1)).map (fun (j : ℕ) => (j : ℤ) - (ell : ℤ))

/-- The two inner loops of `rotateWaveform` for a single `ell` block at
offset `i`: for each `m`, the `mp` loop accumulates
`res[i+m+ell] += matrices[ell-2][ell+m, ell+mp] * h[i+mp+ell]`, which is
the sum over `mp` added to the entry. -/
noncomputable def rotateBlock (D : ℕ → ℤ → ℤ → ℂ) (h : ℤ → ℂ) (ell : ℕ) (i : ℤ)
    (res : ℤ → ℂ) : ℤ → ℂ :=
  (mRange ell).foldl (fun r m =>
    Function.update r (i + m + ell)
      (r (i + m + ell) +
        ∑ mp in Finset.Icc (-(ell : ℤ)) (ell : ℤ), D ell m mp * h (i + mp + ell))) res

/-- Embedding of `rotateWaveform(quat, h)` at one time sample.  The mode
array `h` is an index-to-value map together with its length `n`
(entries outside `[0, n)` are irrelevant); the result starts from
`res = 0.*h` and the outer loop advances the block offset by `2*ell+1`. -/
noncomputable def rotateWaveform (wc : ℕ → ℤ → ℤ → ℝ) (bn : ℤ → ℤ → ℝ)
    (quat : Quat) (h : ℤ → ℂ) (n : ℕ) : Option (ℤ → ℂ) :=
  let q := quatInv quat
  match ellMaxOfNModes n with
  | none => none
  | some ellMax =>
    some (((List.range' 2 (ellMax - 1)).foldl
      (fun st ell => (rotateBlock (wignerDentry wc bn q) h ell st.2 st.1,
                      st.2 + (2 * (ell : ℤ) + 1)))
      ((fun _ => 0), (0 : ℤ))).1)

/-! ### Facts about the identity rotation -/

theorem quatInv_idQuat : quatInv idQuat = idQuat := by
  simp only [quatInv, multiplyQuats, idQuat]
  norm_num

theorem wignerDentry_idQuat (wc : ℕ → ℤ → ℤ → ℝ) (bn : ℤ → ℤ → ℝ)
    (ell : ℕ) (m mp : ℤ) :
    wignerDentry wc bn idQuat ell m mp = if mp = m then 1 else 0 := by
  unfold wignerDentry idQuat
  have hra : (⟨(1 : ℝ), (0 : ℝ)⟩ : ℂ) = 1 := rfl
  have hrb : (⟨(0 : ℝ), (0 : ℝ)⟩ : ℂ) = 0 := rfl
  simp only [hra, hrb, map_one, map_zero]
  rw [if_neg (by norm_num), if_pos (by norm_num)]
  split
  · exact one_zpow _
  · rfl

theorem mem_mRange (ell : ℕ) (m : ℤ) :
    m ∈ mRange ell ↔ -(ell : ℤ) ≤ m ∧ m ≤ (ell : ℤ) := by
  unfold mRange
  simp only [List.mem_map, List.mem_range]
  constructor
  · rintro ⟨j, hj, rfl⟩; omega
  · rintro ⟨h1, h2⟩; exact ⟨(m + ell).toNat, by omega, by omega⟩

theorem mRange_nodup (ell : ℕ) : (mRange ell).Nodup := by
  unfold mRange
  have hinj : Function.Injective (fun (j : ℕ) => (j : ℤ) - (ell : ℤ)) := by
    intro a b hab
    simpa using hab
  exact (List.nodup_range _).map hinj

theorem foldl_update_not_mem (c : ℤ → ℂ) (l : List ℤ) (key : ℤ → ℤ)
    (r : ℤ → ℂ) (p : ℤ) (hp : ∀ m ∈ l, key m ≠ p) :
    (l.foldl (fun r m => Function.update r (key m) (r (key m) + c m)) r) p = r p := by
  induction l generalizing r with
  | nil => rfl
  | cons a l ih =>
    simp only [List.foldl_cons]
    rw [ih _ (fun m hm => hp m (List.mem_cons_of_mem a hm))]
    exact Function.update_noteq (fun hpa => hp a (List.mem_cons_self a l) hpa.symm) _ _

theorem foldl_update_mem (c : ℤ → ℂ) (l : List ℤ) (key : ℤ → ℤ)
    (r : ℤ → ℂ) (p m0 : ℤ) (hinj : Function.Injective key) (hnd : l.Nodup)
    (hm0 : m0 ∈ l) (hkey : key m0 = p) :
    (l.foldl (fun r m => Function.update r (key m) (r (key m) + c m)) r) p
      = r p + c m0 := by
  induction l generalizing r with
  | nil => cases hm0
  | cons a l ih =>
    simp only [List.foldl_cons]
    rcases List.mem_cons.mp hm0 with rfl | hm
    · have hrest : ∀ m ∈ l, key m ≠ p := by
        intro m hm hkm
        have hmm : m = m0 := hinj (by rw [hkm, hkey])
        exact (List.nodup_cons.mp hnd).1 (hmm ▸ hm)
      rw [foldl_update_not_mem c l key _ p hrest, ← hkey, Function.update_same]
    · have hka : key a ≠ p := by
        intro hkm
        have haa : a = m0 := hinj (by rw [hkm, hkey])
        exact (List.nodup_cons.mp hnd).1 (haa ▸ hm)
      rw [ih _ (List.nodup_cons.mp hnd).2 hm,
        Function.update_noteq (fun hpa => hka hpa.symm)]

theorem rotateBlock_delta (D : ℕ → ℤ → ℤ → ℂ)
    (hD : ∀ ell m mp, D ell m mp = if mp = m then 1 else 0)
    (h : ℤ → ℂ) (ell : ℕ) (i : ℤ) (res : ℤ → ℂ) (p : ℤ) :
    rotateBlock D h ell i res p =
      if i ≤ p ∧ p ≤ i + 2 * ell then res p + h p else res p := by
  unfold rotateBlock
  have hsum : ∀ m : ℤ, -(ell : ℤ) ≤ m → m ≤ (ell : ℤ) →
      (∑ mp in Finset.Icc (-(ell : ℤ)) (ell : ℤ), D ell m mp * h (i + mp + ell))
        = h (i + m + ell) := by
    intro m h1 h2
    have : ∀ mp : ℤ, D ell m mp * h (i + mp + ell)
        = if mp = m then h (i + mp + ell) else 0 := by
      intro mp; rw [hD]; split <;> simp
    rw [Finset.sum_congr rfl (fun mp _ => this mp), Finset.sum_ite_eq']
    rw [if_pos (Finset.mem_Icc.mpr ⟨h1, h2⟩)]
  by_cases hp : i ≤ p ∧ p ≤ i + 2 * ell
  · rw [if_pos hp]
    have hkey : i + (p - i - ell) + ell = p := by ring
    have hmem : (p - i - ell) ∈ mRange ell := (mem_mRange ell _).mpr (by omega)
    have hstep := foldl_update_mem
      (fun m => ∑ mp in Finset.Icc (-(ell : ℤ)) (ell : ℤ), D ell m mp * h (i + mp + ell))
      (mRange ell) (fun m => i + m + ell) res p (p - i - ell)
      (fun a b hab => by simpa using hab) (mRange_nodup ell) hmem hkey
    rw [hstep]
    dsimp only
    rw [hsum (p - i - ell) (by omega) (by omega), hkey]
  · rw [if_neg hp]
    refine foldl_update_not_mem _ _ _ _ _ (fun m hm => ?_)
    rw [mem_mRange] at hm
    omega

theorem rotateFold_delta (D : ℕ → ℤ → ℤ → ℂ)
    (hD : ∀ ell m mp, D ell m mp = if mp = m then 1 else 0)
    (h : ℤ → ℂ) (k : ℕ) :
    ((List.range' 2 k).foldl
        (fun st ell => (rotateBlock D h ell st.2 st.1, st.2 + (2 * (ell : ℤ) + 1)))
        ((fun _ => 0), (0 : ℤ))).2 = ((k : ℤ) + 2) ^ 2 - 4 ∧
    ∀ p : ℤ,
      ((List.range' 2 k).foldl
        (fun st ell => (rotateBlock D h ell st.2 st.1, st.2 + (2 * (ell : ℤ) + 1)))
        ((fun _ => 0), (0 : ℤ))).1 p
        = if 0 ≤ p ∧ p < ((k : ℤ) + 2) ^ 2 - 4 then h p else 0 := by
  induction k with
  | zero =>
    refine ⟨by norm_num, fun p => ?_⟩
    rw [if_neg (by omega)]
    rfl
  | succ k ih =>
    obtain ⟨ih2, ih1⟩ := ih
    rw [List.range'_1_concat, List.foldl_append]
    simp only [List.foldl_cons, List.foldl_nil]
    constructor
    · rw [ih2]
      push_cast
      ring
    · intro p
      rw [rotateBlock_delta D hD, ih1 p, ih2]
      push_cast
      have hB : ((k : ℤ) + 1 + 2) ^ 2 - 4 = ((k : ℤ) + 2) ^ 2 - 4 + (2 * (k : ℤ) + 5) := by
        ring
      rw [hB]
      have hA0 : 0 ≤ ((k : ℤ) + 2) ^ 2 - 4 := by nlinarith [Int.natCast_nonneg k]
      generalize hA : ((k : ℤ) + 2) ^ 2 - 4 = A at *
      split_ifs <;> first | rfl | exact zero_add _ | omega

/-- Claim C7: rotating a mode array of recognized length by the constant
identity quaternion `(1, 0, 0, 0)` returns it unchanged exactly:
`rotateWaveform` applied to the identity quaternion is the identity map on
mode arrays.  The external coefficient functions `wc`, `bn` are arbitrary
because the identity quaternion has `rb = 0`, selecting the branch that
never consults them. -/
theorem rotateWaveform_idQuat (wc : ℕ → ℤ → ℤ → ℝ) (bn : ℤ → ℤ → ℝ)
    (h : ℤ → ℂ) (n : ℕ) (hn : (ellMaxOfNModes n).isSome) :
    ∃ res, rotateWaveform wc bn idQuat h n = some res ∧
      ∀ p : ℤ, 0 ≤ p → p < (n : ℤ) → res p = h p := by
  obtain ⟨E, hE⟩ := Option.isSome_iff_exists.mp hn
  have hDid : ∀ ell m mp, wignerDentry wc bn (quatInv idQuat) ell m mp
      = if mp = m then 1 else 0 := by
    intro ell m mp
    rw [quatInv_idQuat]
    exact wignerDentry_idQuat wc bn ell m mp
  have hcast : ((((E - 1 : ℕ)) : ℤ) + 2) ^ 2 - 4 = (n : ℤ) := by
    unfold ellMaxOfNModes at hE
    split_ifs at hE <;> cases hE <;> subst_vars <;> norm_num
  unfold rotateWaveform
  rw [hE]
  refine ⟨_, rfl, fun p hp0 hpn => ?_⟩
  have inv := rotateFold_delta (wignerDentry wc bn (quatInv idQuat)) hDid h (E - 1)
  rw [inv.2 p, if_pos ⟨hp0, by rw [hcast]; exact hpn⟩]

/-- Witness for C7 at the concrete length n = 5 and mode array p ↦ p. -/
theorem rotateWaveform_idQuat_witness :
    ∃ res, rotateWaveform (fun _ _ _ => 0) (fun _ _ => 0) idQuat
        (fun p => (p : ℂ)) 5 = some res ∧
      ∀ p : ℤ, 0 ≤ p → p < ((5 : ℕ) : ℤ) → res p = (p : ℂ) :=
  rotateWaveform_idQuat (fun _ _ _ => 0) (fun _ _ => 0) (fun p => (p : ℂ)) 5 rfl

theorem ellMaxOfNModes_none_iff (n : ℕ) :
    ellMaxOfNModes n = none ↔ n ∉ ([5, 12, 21, 32, 45, 60, 77] : List ℕ) := by
  unfold ellMaxOfNModes
  split_ifs <;> simp_all

/-- Claim C4: the rotation determines ellMax from the mode count via
exactly the finite mapping 5↦2, 12↦3, 21↦4, 32↦5, 45↦6, 60↦7, 77↦8, and
for every mode array whose length is not one of those seven values
`rotateWaveform` fails (the KeyError, modelled as `none`) instead of
using a default. -/
theorem rotateWaveform_ellMax_lookup (wc : ℕ → ℤ → ℤ → ℝ) (bn : ℤ → ℤ → ℝ)
    (quat : Quat) (h : ℤ → ℂ) (n : ℕ) :
    (∀ L, ellMaxOfNModes n = some L ↔
      (n, L) ∈ ([(5, 2), (12, 3), (21, 4), (32, 5), (45, 6), (60, 7), (77, 8)]
        : List (ℕ × ℕ))) ∧
    (rotateWaveform wc bn quat h n = none ↔
      n ∉ ([5, 12, 21, 32, 45, 60, 77] : List ℕ)) := by
  constructor
  · intro L
    unfold ellMaxOfNModes
    split_ifs <;> simp_all <;> omega
  · rw [← ellMaxOfNModes_none_iff]
    unfold rotateWaveform
    cases hE : ellMaxOfNModes n <;> simp [hE]

/-! ## Coorbital mode-pair assembly (`_assemble_mode_pair`,
`CoorbitalWaveformSurrogate.__call__`) -/

/-- Embedding of `_assemble_mode_pair(rep, rem, imp, imm)` at one time
sample: `hplus = rep + 1j*imp`, `hminus = rem + 1j*imm`, returning
`((hplus - hminus).conjugate(), hplus + hminus)`, i.e. the pair
`(h_posm, h_negm)`. -/
noncomputable def assemble_mode_pair (rep rem imp imm : ℂ) : ℂ × ℂ :=
  let hplus : ℂ := rep + Complex.I * imp
  let hminus : ℂ := rem + Complex.I * imm
  ((starRingEnd ℂ) (hplus - hminus), hplus + hminus)

/-- Embedding of the mode-assembly loop of
`CoorbitalWaveformSurrogate.__call__` at one time sample.  The oracles
`re0 ell`, `im0 ell` are the outputs of `_eval_comp` for the m = 0
component of the `ell` block, and `rep ell m` etc. are the four
interpolant outputs for `(ell, m)` with `m ≥ 1`; the returned mode array
starts from `modes = 0j*zeros(nmodes)` and is written exactly as in the
source: `modes[ell*(ell+1)-4] = re + 1j*im`, then for `m = 1..ell`
`modes[ell*(ell+1)-4+m] = h_posm` and `modes[ell*(ell+1)-4-m] = h_negm`. -/
noncomputable def coorbCall (ellMax : ℕ) (re0 im0 : ℕ → ℂ)
    (rep rem imp imm : ℕ → ℕ → ℂ) : ℤ → ℂ :=
  (List.range' 2 (ellMax - 1)).foldl (fun (modes : ℤ → ℂ) (ell : ℕ) =>
    let modes0 := Function.update modes ((ell : ℤ) * ((ell : ℤ) + 1) - 4)
      (re0 ell + Complex.I * im0 ell)
    (List.range' 1 ell).foldl (fun (ms : ℤ → ℂ) (m : ℕ) =>
      Function.update
        (Function.update ms ((ell : ℤ) * ((ell : ℤ) + 1) - 4 + (m : ℤ))
          (assemble_mode_pair (rep ell m) (rem ell m) (imp ell m) (imm ell m)).1)
        ((ell : ℤ) * ((ell : ℤ) + 1) - 4 - (m : ℤ))
        (assemble_mode_pair (rep ell m) (rem ell m) (imp ell m) (imm ell m)).2)
      modes0)
    (fun _ => 0)

theorem range'_nodup (s n : ℕ) : (List.range' s n).Nodup := by
  have h := List.pairwise_lt_range' s n 1 (by omega)
  exact h.imp (fun hab => Nat.ne_of_lt hab)

theorem foldl_update2_not_mem (k1 k2 : ℕ → ℤ) (v1 v2 : ℕ → ℂ) (l : List ℕ)
    (r : ℤ → ℂ) (p : ℤ) (hp : ∀ m ∈ l, k1 m ≠ p ∧ k2 m ≠ p) :
    (l.foldl (fun ms m =>
        Function.update (Function.update ms (k1 m) (v1 m)) (k2 m) (v2 m)) r) p
      = r p := by
  induction l generalizing r with
  | nil => rfl
  | cons a l ih =>
    simp only [List.foldl_cons]
    rw [ih _ (fun m hm => hp m (List.mem_cons_of_mem a hm))]
    have ha := hp a (List.mem_cons_self a l)
    rw [Function.update_noteq (fun hq => ha.2 hq.symm),
      Function.update_noteq (fun hq => ha.1 hq.symm)]

theorem foldl_update2_mem1 (k1 k2 : ℕ → ℤ) (v1 v2 : ℕ → ℂ) (l : List ℕ)
    (r : ℤ → ℂ) (p : ℤ) (m0 : ℕ) (hnd : l.Nodup) (hm0 : m0 ∈ l)
    (hk : k1 m0 = p) (hk2 : k2 m0 ≠ p)
    (hothers : ∀ m ∈ l, m ≠ m0 → k1 m ≠ p ∧ k2 m ≠ p) :
    (l.foldl (fun ms m =>
        Function.update (Function.update ms (k1 m) (v1 m)) (k2 m) (v2 m)) r) p
      = v1 m0 := by
  induction l generalizing r with
  | nil => cases hm0
  | cons a l ih =>
    simp only [List.foldl_cons]
    rcases List.mem_cons.mp hm0 with rfl | hm
    · have hrest : ∀ m ∈ l, k1 m ≠ p ∧ k2 m ≠ p := by
        intro m hm
        refine hothers m (List.mem_cons_of_mem _ hm) (fun hmm => ?_)
        exact (List.nodup_cons.mp hnd).1 (hmm ▸ hm)
      rw [foldl_update2_not_mem k1 k2 v1 v2 l _ p hrest,
        Function.update_noteq (fun hq => hk2 hq.symm), ← hk, Function.update_same]
    · exact ih _ (List.nodup_cons.mp hnd).2 hm
        (fun m hmm hne => hothers m (List.mem_cons_of_mem a hmm) hne)

theorem foldl_update2_mem2 (k1 k2 : ℕ → ℤ) (v1 v2 : ℕ → ℂ) (l : List ℕ)
    (r : ℤ → ℂ) (p : ℤ) (m0 : ℕ) (hnd : l.Nodup) (hm0 : m0 ∈ l)
    (hk : k2 m0 = p)
    (hothers : ∀ m ∈ l, m ≠ m0 → k1 m ≠ p ∧ k2 m ≠ p) :
    (l.foldl (fun ms m =>
        Function.update (Function.update ms (k1 m) (v1 m)) (k2 m) (v2 m)) r) p
      = v2 m0 := by
  induction l generalizing r with
  | nil => cases hm0
  | cons a l ih =>
    simp only [List.foldl_cons]
    rcases List.mem_cons.mp hm0 with rfl | hm
    · have hrest : ∀ m ∈ l, k1 m ≠ p ∧ k2 m ≠ p := by
        intro m hm
        refine hothers m (List.mem_cons_of_mem _ hm) (fun hmm => ?_)
        exact (List.nodup_cons.mp hnd).1 (hmm ▸ hm)
      rw [foldl_update2_not_mem k1 k2 v1 v2 l _ p hrest, ← hk, Function.update_same]
    · exact ih _ (List.nodup_cons.mp hnd).2 hm
        (fun m hmm hne => hothers m (List.mem_cons_of_mem a hmm) hne)

theorem foldl_blocks_not_mem (g : (ℤ → ℂ) → ℕ → (ℤ → ℂ)) (l : List ℕ)
    (r : ℤ → ℂ) (p : ℤ) (hg : ∀ ms ell, ell ∈ l → (g ms ell) p = ms p) :
    (l.foldl g r) p = r p := by
  induction l generalizing r with
  | nil => rfl
  | cons a l ih =>
    simp only [List.foldl_cons]
    rw [ih _ (fun ms ell hℓ => hg ms ell (List.mem_cons_of_mem a hℓ)),
      hg r a (List.mem_cons_self a l)]

theorem foldl_blocks_mem (g : (ℤ → ℂ) → ℕ → (ℤ → ℂ)) (l : List ℕ)
    (r : ℤ → ℂ) (p : ℤ) (e0 : ℕ) (w : ℂ) (hnd : l.Nodup) (he0 : e0 ∈ l)
    (hset : ∀ ms, (g ms e0) p = w)
    (hothers : ∀ ms ell, ell ∈ l → ell ≠ e0 → (g ms ell) p = ms p) :
    (l.foldl g r) p = w := by
  induction l generalizing r with
  | nil => cases he0
  | cons a l ih =>
    simp only [List.foldl_cons]
    rcases List.mem_cons.mp he0 with rfl | hm
    · rw [foldl_blocks_not_mem g l _ p (fun ms ell hℓ => hothers ms ell
        (List.mem_cons_of_mem _ hℓ)
        (fun hmm => (List.nodup_cons.mp hnd).1 (hmm ▸ hℓ))), hset r]
    · exact ih _ (List.nodup_cons.mp hnd).2 hm
        (fun ms ell hℓ hne => hothers ms ell (List.mem_cons_of_mem a hℓ) hne)

theorem block_separation {a b : ℕ} (hab : a < b) (x y : ℤ)
    (hx : (a : ℤ) ^ 2 - 4 ≤ x ∧ x ≤ (a : ℤ) ^ 2 + 2 * a - 4)
    (hy : (b : ℤ) ^ 2 - 4 ≤ y ∧ y ≤ (b : ℤ) ^ 2 + 2 * b - 4) : x < y := by
  have hab' : ((a : ℤ) + 1) ≤ (b : ℤ) := by omega
  have hsq : ((a : ℤ) + 1) ^ 2 ≤ (b : ℤ) ^ 2 := by
    have h0 : (0 : ℤ) ≤ (a : ℤ) + 1 := by omega
    nlinarith [mul_nonneg (by omega : (0 : ℤ) ≤ (b : ℤ) - a - 1)
      (by omega : (0 : ℤ) ≤ (b : ℤ) + a + 1)]
  nlinarith [hx.2, hy.1, hsq]

theorem block_write_ne {a b : ℕ} (hne : a ≠ b) (x y : ℤ)
    (hx : (a : ℤ) ^ 2 - 4 ≤ x ∧ x ≤ (a : ℤ) ^ 2 + 2 * a - 4)
    (hy : (b : ℤ) ^ 2 - 4 ≤ y ∧ y ≤ (b : ℤ) ^ 2 + 2 * b - 4) : x ≠ y := by
  rcases Nat.lt_or_ge a b with hab | hab
  · exact ne_of_lt (block_separation hab x y hx hy)
  · have hba : b < a := by omega
    exact (ne_of_lt (block_separation hba y x hy hx)).symm

/-- Claim C1 (amended): for every `ell` and every `m` with
`0 < m ≤ ell ≤ ellMax`, the coorbital evaluator stores
`h(ell,+m) = conjugate((Re+ + i*Im+) - (Re- + i*Im-))` at index
`ell*(ell+1)-4+m` and `h(ell,-m) = (Re+ + i*Im+) + (Re- + i*Im-)` at
index `ell*(ell+1)-4-m` of the returned mode array. -/
theorem coorbCall_mode_pair (ellMax : ℕ) (re0 im0 : ℕ → ℂ)
    (rep rem imp imm : ℕ → ℕ → ℂ) (ell m : ℕ)
    (h2 : 2 ≤ ell) (hM : ell ≤ ellMax) (hm1 : 1 ≤ m) (hm : m ≤ ell) :
    coorbCall ellMax re0 im0 rep rem imp imm
        ((ell : ℤ) * ((ell : ℤ) + 1) - 4 + (m : ℤ))
      = (starRingEnd ℂ) ((rep ell m + Complex.I * imp ell m)
          - (rem ell m + Complex.I * imm ell m)) ∧
    coorbCall ellMax re0 im0 rep rem imp imm
        ((ell : ℤ) * ((ell : ℤ) + 1) - 4 - (m : ℤ))
      = (rep ell m + Complex.I * imp ell m)
          + (rem ell m + Complex.I * imm ell m) := by
  have hmemo : ell ∈ List.range' 2 (ellMax - 1) := by
    rw [List.mem_range'_1]; omega
  have hmemi : m ∈ List.range' 1 ell := by
    rw [List.mem_range'_1]; omega
  have hcast : 1 ≤ (m : ℤ) ∧ (m : ℤ) ≤ (ell : ℤ) := by
    constructor <;> exact_mod_cast (by omega : _ )
  have hbnd : ∀ p : ℤ, ((ell : ℤ) ^ 2 - 4 ≤ p ∧ p ≤ (ell : ℤ) ^ 2 + 2 * ell - 4) →
      ∀ (ms : ℤ → ℂ) (e : ℕ), e ∈ List.range' 2 (ellMax - 1) → e ≠ ell →
      (fun (modes : ℤ → ℂ) (e : ℕ) =>
        (List.range' 1 e).foldl (fun (ms : ℤ → ℂ) (m : ℕ) =>
          Function.update
            (Function.update ms ((e : ℤ) * ((e : ℤ) + 1) - 4 + (m : ℤ))
              (assemble_mode_pair (rep e m) (rem e m) (imp e m) (imm e m)).1)
            ((e : ℤ) * ((e : ℤ) + 1) - 4 - (m : ℤ))
            (assemble_mode_pair (rep e m) (rem e m) (imp e m) (imm e m)).2)
          (Function.update modes ((e : ℤ) * ((e : ℤ) + 1) - 4)
            (re0 e + Complex.I * im0 e))) ms e p = ms p := by
    intro p hp ms e he hne
    rw [List.mem_range'_1] at he
    dsimp only
    have hre : (e : ℤ) * ((e : ℤ) + 1) = (e : ℤ) ^ 2 + e := by ring
    rw [foldl_update2_not_mem _ _ _ _ _ _ _ ?hmm]
    case hmm =>
      intro m' hm'
      rw [List.mem_range'_1] at hm'
      have hc' : 1 ≤ (m' : ℤ) ∧ (m' : ℤ) ≤ (e : ℤ) := by
        constructor <;> exact_mod_cast (by omega : _ )
      constructor
      · exact block_write_ne hne _ _
          ⟨by nlinarith [hc'.1, hc'.2, hre], by nlinarith [hc'.1, hc'.2, hre]⟩ hp
      · exact block_write_ne hne _ _
          ⟨by nlinarith [hc'.1, hc'.2, hre], by nlinarith [hc'.1, hc'.2, hre]⟩ hp
    refine Function.update_noteq ?_ _ _
    refine (block_write_ne hne _ _ ⟨by nlinarith [hre], by nlinarith [hre]⟩ hp).symm
  have hrell : (ell : ℤ) * ((ell : ℤ) + 1) = (ell : ℤ) ^ 2 + ell := by ring
  constructor
  · unfold coorbCall
    refine foldl_blocks_mem _ _ _ _ ell _ (range'_nodup _ _) hmemo ?_ ?_
    · intro ms
      dsimp only
      refine Eq.trans (foldl_update2_mem1 _ _ _ _ _ _ _ m (range'_nodup _ _)
        hmemi rfl ?_ ?_) ?_
      · intro hq
        have : (m : ℤ) = 0 := by linarith [hq]
        omega
      · intro m' hm' hne'
        rw [List.mem_range'_1] at hm'
        constructor
        · intro hq
          refine hne' ?_
          have : (m' : ℤ) = (m : ℤ) := by linarith [hq]
          exact_mod_cast this
        · intro hq
          have : (m' : ℤ) + (m : ℤ) = 0 := by linarith [hq]
          omega
      · rfl
    · intro ms e he hne
      exact hbnd _ ⟨by nlinarith [hcast.1, hcast.2, hrell],
        by nlinarith [hcast.1, hcast.2, hrell]⟩ ms e he hne
  · unfold coorbCall
    refine foldl_blocks_mem _ _ _ _ ell _ (range'_nodup _ _) hmemo ?_ ?_
    · intro ms
      dsimp only
      refine Eq.trans (foldl_update2_mem2 _ _ _ _ _ _ _ m (range'_nodup _ _)
        hmemi rfl ?_) ?_
      · intro m' hm' hne'
        rw [List.mem_range'_1] at hm'
        constructor
        · intro hq
          have : (m' : ℤ) + (m : ℤ) = 0 := by linarith [hq]
          omega
        · intro hq
          refine hne' ?_
          have : (m' : ℤ) = (m : ℤ) := by linarith [hq]
          exact_mod_cast this
      · rfl
    · intro ms e he hne
      exact hbnd _ ⟨by nlinarith [hcast.1, hcast.2, hrell],
        by nlinarith [hcast.1, hcast.2, hrell]⟩ ms e he hne

/-- Witness for C1 (amended) at `ellMax = 2`, `ell = 2`, `m = 1`, with
interpolant outputs Re+ = 5, Re- = 7, Im+ = 11, Im- = 13. -/
theorem coorbCall_mode_pair_witness :
    coorbCall 2 (fun _ => 0) (fun _ => 0) (fun _ _ => 5) (fun _ _ => 7)
        (fun _ _ => 11) (fun _ _ => 13)
        ((2 : ℤ) * ((2 : ℤ) + 1) - 4 + ((1 : ℕ) : ℤ))
      = (starRingEnd ℂ) (((5 : ℂ) + Complex.I * 11) - ((7 : ℂ) + Complex.I * 13)) ∧
    coorbCall 2 (fun _ => 0) (fun _ => 0) (fun _ _ => 5) (fun _ _ => 7)
        (fun _ _ => 11) (fun _ _ => 13)
        ((2 : ℤ) * ((2 : ℤ) + 1) - 4 - ((1 : ℕ) : ℤ))
      = ((5 : ℂ) + Complex.I * 11) + ((7 : ℂ) + Complex.I * 13) := by
  have h := coorbCall_mode_pair 2 (fun _ => 0) (fun _ => 0) (fun _ _ => 5)
    (fun _ _ => 7) (fun _ _ => 11) (fun _ _ => 13) 2 1
    (by norm_num) (by norm_num) (by norm_num) (by norm_num)
  exact_mod_cast h

/-- Counterexample to claim C1 as stated: with `ell = 2`, `m = 1` and
interpolant outputs Re+ = 0, Re- = 0, Im+ = 1, Im- = 0, the mode stored at
index `ell*(ell+1)-4+m = 3` is `conj((0 + i*1) - (0 + i*0)) = -i`, whereas
the claim predicts `h(2,+1) = (Re+ + i*Im+) + (Re- + i*Im-) = i`.  (The
code stores the sum `hplus + hminus` at the index `ell*(ell+1)-4-m` of the
negative mode instead.) -/
theorem coorbCall_claim_counterexample :
    coorbCall 2 (fun _ => 0) (fun _ => 0) (fun _ _ => 0) (fun _ _ => 0)
        (fun _ _ => 1) (fun _ _ => 0) 3 = -Complex.I ∧
    -Complex.I ≠ ((0 : ℂ) + Complex.I * 1) + ((0 : ℂ) + Complex.I * 0) := by
  constructor
  · have h1 : List.range' 2 (2 - 1) = [2] := rfl
    have h2 : List.range' 1 2 = [1, 2] := rfl
    unfold coorbCall
    rw [h1]
    simp only [List.foldl_cons, List.foldl_nil]
    rw [h2]
    simp only [List.foldl_cons, List.foldl_nil]
    norm_num [Function.update, assemble_mode_pair]
  · norm_num [Complex.ext_iff]

/-! ## Reference-time determination (`DynamicsSurrogate._get_t_ref`) -/

/-- The exceptions `_get_t_ref` can raise (beyond those of its callees):
`ceiling` is the "omega_ref > 0.2, too large" error, `tooSmall` is the
"omega_ref < omega_0, too small" error, `indexOut` models the IndexError
produced when the search loop runs past the last grid node, and
`outOfDomain` is the "t_ref ended up outside the time domain" error. -/
inductive TRefError
  | ceiling
  | tooSmall
  | indexOut
  | outOfDomain
deriving DecidableEq

/-- The `while omega_max <= omega_ref` search loop of `_get_t_ref`,
with explicit fuel (the loop variable `imax` strictly increases, so
`fuel = L` suffices; reading a fit past the last node, which would raise
an IndexError in Python, is `indexOut`). -/
def findRefInterval (L : ℕ) (omega : ℕ → ℚ) (omega_ref : ℚ) :
    ℕ → ℕ → ℚ → ℚ → Except TRefError (ℕ × ℚ × ℚ)
  | 0, _, _, _ => Except.error TRefError.indexOut
  | fuel + 1, imax, omega_min, omega_max =>
    if omega_max ≤ omega_ref then
      if imax + 1 < L then
        findRefInterval L omega omega_ref fuel (imax + 1) omega_max
          (omega (imax + 1))
      else Except.error TRefError.indexOut
    else Except.ok (imax, omega_min, omega_max)

/-- Embedding of `DynamicsSurrogate._get_t_ref(omega_ref, q, chiA0, chiB0,
init_orbphase, init_quat)`.  The function first builds the initial state
`y0` and then only evaluates `get_omega(i, q, y0)` at grid indices `i`;
that external fit evaluation (with `q` and `y0` fixed) enters the model as
the oracle `omega : ℕ → ℚ`.  `t` is the dynamics grid with `L` nodes. -/
def get_t_ref (L : ℕ) (omega : ℕ → ℚ) (t : ℕ → ℚ) (omega_ref : ℚ) :
    Except TRefError ℚ :=
  if 0.201 < omega_ref then Except.error TRefError.ceiling
  else
    let omega0 := omega 0
    if omega_ref < omega0 then Except.error TRefError.tooSmall
    else
      match findRefInterval L omega omega_ref L 1 omega0 (omega 1) with
      | Except.error e => Except.error e
      | Except.ok (imax, omega_min, omega_max) =>
        let t_ref := (t (imax - 1) * (omega_max - omega_ref)
          + t imax * (omega_ref - omega_min)) / (omega_max - omega_min)
        if t_ref < t 0 ∨ t (L - 1) < t_ref then
          Except.error TRefError.outOfDomain
        else Except.ok t_ref

theorem findRefInterval_error_eq (L : ℕ) (omega : ℕ → ℚ) (oref : ℚ)
    (fuel : ℕ) :
    ∀ (imax : ℕ) (omin omax : ℚ) (e : TRefError),
    findRefInterval L omega oref fuel imax omin omax = Except.error e →
    e = TRefError.indexOut := by
  induction fuel with
  | zero =>
    intro imax omin omax e h
    rw [findRefInterval] at h
    exact (Except.error.inj h).symm
  | succ fuel ih =>
    intro imax omin omax e h
    rw [findRefInterval] at h
    split_ifs at h with h1 h2
    · exact ih _ _ _ _ h
    · exact (Except.error.inj h).symm

/-- Claim C5: supplying a reference angular frequency raises the
"too large" error iff it exceeds the hard ceiling 0.201, raises the
"too small" error when it is below the initial frequency `omega 0`
(the orbital frequency fit at grid node 0 evaluated on the initial
state), and within those bounds raises neither of those two errors. -/
theorem get_t_ref_bounds (L : ℕ) (omega : ℕ → ℚ) (t : ℕ → ℚ) (oref : ℚ) :
    (0.201 < oref → get_t_ref L omega t oref = Except.error TRefError.ceiling) ∧
    (oref ≤ 0.201 → oref < omega 0 →
      get_t_ref L omega t oref = Except.error TRefError.tooSmall) ∧
    (oref ≤ 0.201 → omega 0 ≤ oref →
      get_t_ref L omega t oref ≠ Except.error TRefError.ceiling ∧
      get_t_ref L omega t oref ≠ Except.error TRefError.tooSmall) := by
  refine ⟨fun h1 => ?_, fun h1 h2 => ?_, fun h1 h2 => ?_⟩
  · unfold get_t_ref
    rw [if_pos h1]
  · unfold get_t_ref
    rw [if_neg (not_lt.mpr h1), if_pos h2]
  · unfold get_t_ref
    rw [if_neg (not_lt.mpr h1), if_neg (not_lt.mpr h2)]
    cases hf : findRefInterval L omega oref L 1 (omega 0) (omega 1) with
    | error e =>
      have he := findRefInterval_error_eq L omega oref L 1 (omega 0)
        (omega 1) e hf
      subst he
      exact ⟨by simp, by simp⟩
    | ok v =>
      obtain ⟨imax, omin, omax⟩ := v
      dsimp only
      split_ifs <;> exact ⟨by simp, by simp⟩

/-- Witness for C5: a three-node model with `omega i = (i+1)/10`; the
reference frequency 0.3 is above the ceiling, 0.05 is below the initial
frequency 0.1, and 0.15 is within bounds. -/
theorem get_t_ref_bounds_witness :
    get_t_ref 3 (fun i => ((i : ℚ) + 1) / 10) (fun i => (i : ℚ)) 0.3
      = Except.error TRefError.ceiling ∧
    get_t_ref 3 (fun i => ((i : ℚ) + 1) / 10) (fun i => (i : ℚ)) 0.05
      = Except.error TRefError.tooSmall ∧
    get_t_ref 3 (fun i => ((i : ℚ) + 1) / 10) (fun i => (i : ℚ)) 0.15
        ≠ Except.error TRefError.ceiling ∧
    get_t_ref 3 (fun i => ((i : ℚ) + 1) / 10) (fun i => (i : ℚ)) 0.15
        ≠ Except.error TRefError.tooSmall :=
  ⟨(get_t_ref_bounds 3 _ _ 0.3).1 (by norm_num),
   (get_t_ref_bounds 3 _ _ 0.05).2.1 (by norm_num) (by norm_num),
   ((get_t_ref_bounds 3 _ _ 0.15).2.2 (by norm_num) (by norm_num)).1,
   ((get_t_ref_bounds 3 _ _ 0.15).2.2 (by norm_num) (by norm_num)).2⟩

/-! ## Local-variable binding in `PrecessingSurrogate.__call__` -/

/-- The `do_interp` flag of `PrecessingSurrogate.__call__`:
`do_interp = False` exactly when both `dtM` and `timesM` are `None`
(output on the native sparse coorbital grid), `True` otherwise. -/
def doInterp (dtM : Option ℚ) (timesM : Option (List ℚ)) : Bool :=
  match dtM, timesM with
  | none, none => false
  | _, _ => true

/-- The tail of `PrecessingSurrogate.__call__` as far as the binding of
the Python local `dynamics` is concerned.  A Python local is bound only
by assignments actually executed: `dynamics = {...}` sits inside
`if return_dynamics:` under `if do_interp:`, and `dynamics = None` only
in the `else` of `return_dynamics`; the final `return timesM, h, dynamics`
then reads an unbound local when `return_dynamics` is true and
`do_interp` is false.  `Option (Option α)` models the binding state of
the local (`none` = never assigned), with `α` the dynamics dictionary
payload computed in the interpolation branch. -/
def callReturnDynamics {α : Type} (return_dynamics do_interp : Bool)
    (payload : α) : Except String (Option α) :=
  let dynamicsVar : Option (Option α) :=
    if return_dynamics then
      if do_interp then some (some payload) else none
    else some none
  match dynamicsVar with
  | some d => Except.ok d
  | none =>
    Except.error "NameError: local variable dynamics referenced before assignment"

/-- Claim C3: a call with `return_dynamics=True` and neither `dtM` nor
`timesM` supplied takes the native-grid path (`do_interp = False`) and
fails at the final return with an unbound-variable error instead of
returning the dynamics. -/
theorem callReturnDynamics_native_grid_fails {α : Type} (payload : α) :
    doInterp none none = false ∧
    callReturnDynamics true (doInterp none none) payload
      = Except.error
        "NameError: local variable dynamics referenced before assignment" :=
  ⟨rfl, rfl⟩

/-- The names bound in the scope of `PrecessingSurrogate.__call__` when
the `use_lalsimulation_conventions` branch runs: its parameters and the
locals assigned before line 953.  Neither this set, nor the enclosing
module scope, defines a name `phi` (the parameter is `phi_ref`). -/
def callScopeNames : List String :=
  ["self", "x", "phi_ref", "fM_low", "fM_ref", "dtM", "timesM", "dfM",
   "freqsM", "mode_list", "ellMax", "precessing_opts", "tidal_opts",
   "par_dict", "return_dynamics", "init_phase", "init_quat",
   "use_lalsimulation_conventions", "q", "chiA0", "chiB0"]

/-- Python name resolution against `callScopeNames`: reading any other
name raises a NameError. -/
def readName (name : String) : Except String Unit :=
  if name ∈ callScopeNames then Except.ok ()
  else Except.error ("NameError: name " ++ name ++ " is not defined")

/-- The `use_lalsimulation_conventions` branch of
`PrecessingSurrogate.__call__`: rotate both spins by `-1 * init_phase`
and then evaluate `if phi is not None:`, which reads the undefined name
`phi`. -/
noncomputable def lalsimConventionsBranch (use_lal : Bool)
    (chiA0 chiB0 : Spin3) (init_phase : ℝ) :
    Except String (Spin3 × Spin3) :=
  if use_lal then
    let chiA0' := rotate_spin chiA0 (-1 * init_phase)
    let chiB0' := rotate_spin chiB0 (-1 * init_phase)
    match readName "phi" with
    | Except.error e => Except.error e
    | Except.ok _ => Except.ok (chiA0', chiB0')
  else Except.ok (chiA0, chiB0)

/-- Claim C10: every call with `use_lalsimulation_conventions=True` fails
with an undefined-name error on `phi`; the option can never complete
successfully. -/
theorem lalsimConventions_always_fails (chiA0 chiB0 : Spin3)
    (init_phase : ℝ) :
    lalsimConventionsBranch true chiA0 chiB0 init_phase
      = Except.error "NameError: name phi is not defined" := by
  have hphi : readName "phi"
      = Except.error "NameError: name phi is not defined" := rfl
  simp only [lalsimConventionsBranch, if_true, hphi]

/-! ## Dynamics integration skeleton (`DynamicsSurrogate.__call__` and
helpers).  The external `_utils` evaluations (`get_time_deriv_from_index`
via the per-node fits, off-node `get_time_deriv` via the spline provider,
`normalize_y`, `ab4_dy`) are parameters of the model record; the array
bookkeeping — which nodes are written, and the shapes of the arrays — is
transcribed from the source. -/

/-- The 11-component state row `[q0, qx, qy, qz, orbphase, chiAx, chiAy,
chiAz, chiBx, chiBy, chiBz]` of the `(L-3, 11)` array `data`. -/
abbrev StateVec := Fin 11 → ℝ

/-- The zero state row (rows of `np.zeros((L-3, 11))`). -/
def zeroV : StateVec := fun _ => 0

/-- `y_of_t[i]` (in-range reads only; out-of-range defaults are never hit
on the executed paths). -/
def getV (a : Array StateVec) (i : ℕ) : StateVec := a.getD i zeroV

/-- The data of a loaded `DynamicsSurrogate`, with the externally
computed pieces as function-valued fields:
`t`/`L` are the `t_ds` grid and its length; `derivIdx i y` is
`get_time_deriv_from_index(i, q, y)`; `derivT s y` is
`get_time_deriv(s, q, y)` (spline-interpolated off-node derivative);
`normY nA nB y` is `_utils.normalize_y(y, nA, nB)`; `ab4dy` is
`_utils.ab4_dy`; `tRefOfOmega w` is `self._get_t_ref(w, ...)` with the
remaining arguments fixed (see `get_t_ref` above for its own model).
The mass ratio `q` is fixed inside the function fields. -/
structure DynModel where
  t : ℕ → ℝ
  L : ℕ
  derivIdx : ℕ → StateVec → StateVec
  derivT : ℝ → StateVec → StateVec
  normY : ℝ → ℝ → StateVec → StateVec
  ab4dy : StateVec → StateVec → StateVec → StateVec → ℝ → ℝ → ℝ → ℝ → StateVec
  tRefOfOmega : ℝ → Except Unit ℝ

/-- `self.diff_t = np.diff(self.t)` on the real grid. -/
noncomputable def diffT (M : DynModel) (i : ℕ) : ℝ := M.t (i + 1) - M.t i

/-- `self.tds = np.append(self.dynamics_sur.t[0:6:2], self.dynamics_sur.t[6:])`
(`PrecessingSurrogate.__init__`): the dynamics grid with the three RK4
half-step nodes collapsed, `[t[0], t[2], t[4], t[6], t[7], ...]`. -/
noncomputable def tds (M : DynModel) : List ℝ :=
  ((List.range 3).map (fun i => M.t (2 * i))) ++
    ((List.range (M.L - 6)).map (fun i => M.t (i + 6)))

/-- `dt_array = np.append(2 * self.diff_t[:6:2], self.diff_t[6:])`. -/
noncomputable def dtArray (M : DynModel) (j : ℕ) : ℝ :=
  if j < 3 then 2 * diffT M (2 * j) else diffT M (j + 3)

/-- `np.argmin(abs(times - t_ref))`: index of the first minimum. -/
noncomputable def argminAbs (xs : List ℝ) (x : ℝ) : ℕ :=
  (xs.enum.foldl (fun (best : Option (ℕ × ℝ)) (iy : ℕ × ℝ) =>
    match best with
    | none => some (iy.1, |iy.2 - x|)
    | some b => if |iy.2 - x| < b.2 then some (iy.1, |iy.2 - x|) else some b)
    none).elim 0 Prod.fst

/-- Embedding of `DynamicsSurrogate._initialize`: allocates
`data = np.zeros((self.L-3, 11))` (three fewer rows than `self.t`), builds
`y0` from the initial conditions (overwriting the quaternion slot when
`init_quat` is given), and either writes `y0` at row 0 (`t_ref = None`)
or takes one explicit-Euler step from `t_ref` to the nearest collapsed
node `i0` and writes the normalized state there. -/
noncomputable def initData (M : DynModel) (chiA0 chiB0 : Fin 3 → ℝ)
    (init_quat : Option (Fin 4 → ℝ)) (init_orbphase : ℝ)
    (t_ref : Option ℝ) (normA normB : ℝ) : Array StateVec × ℕ :=
  let data : Array StateVec := Array.mkArray (M.L - 3) zeroV
  let y0base : StateVec := fun j =>
    ([1, 0, 0, 0, init_orbphase, chiA0 0, chiA0 1, chiA0 2,
      chiB0 0, chiB0 1, chiB0 2] : List ℝ).getD j.val 0
  let y0 : StateVec := match init_quat with
    | none => y0base
    | some qv => fun j => if hj : j.val < 4 then qv ⟨j.val, hj⟩ else y0base j
  match t_ref with
  | none => (data.setD 0 y0, 0)
  | some tr =>
    let times := tds M
    let i0 := argminAbs times tr
    let t0 := times.getD i0 0
    let dydt0 := M.derivT tr y0
    let y_node := M.normY normA normB (y0 + (t0 - tr) • dydt0)
    (data.setD i0 y_node, i0)

/-- Embedding of `DynamicsSurrogate._initial_RK4` (used when
`t_ref = t_0`): three RK4 steps over the half-step pairs, collecting the
`k1` stage derivatives and doubled step sizes for AB4. -/
noncomputable def initRK4 (M : DynModel) (normA normB : ℝ)
    (y : Array StateVec) : List StateVec × List ℝ × Array StateVec :=
  (List.range 3).foldl (fun (st : List StateVec × List ℝ × Array StateVec) (i : ℕ) =>
    let k_ab4 := st.1
    let dt_ab4 := st.2.1
    let y := st.2.2
    let dt := diffT M (2 * i)
    let k1 := M.derivIdx (2 * i) (getV y i)
    let k2 := M.derivIdx (2 * i + 1) (getV y i + dt • k1)
    let k3 := M.derivIdx (2 * i + 1) (getV y i + dt • k2)
    let k4 := M.derivIdx (2 * i + 2) (getV y i + (2 * dt) • k3)
    let ynext := getV y i + (dt / 3) • (k1 + (2 : ℝ) • k2 + (2 : ℝ) • k3 + k4)
    (k_ab4 ++ [k1], dt_ab4 ++ [2 * dt],
     y.setD (i + 1) (M.normY normA normB ynext)))
    ([], [], y)

/-- Embedding of `DynamicsSurrogate._one_forward_RK4_step`. -/
noncomputable def oneForwardRK4 (M : DynModel) (normA normB : ℝ)
    (y : Array StateVec) (i0 : ℕ) : Array StateVec × StateVec :=
  let i_t := if i0 < 3 then i0 * 2 else i0 + 3
  let t1 := M.t i_t
  let t2 := if i0 < 3 then M.t (i_t + 2) else M.t (i_t + 1)
  let half_dt := 0.5 * (t2 - t1)
  let k1 := M.derivT t1 (getV y i0)
  let k2 := M.derivT (t1 + half_dt) (getV y i0 + half_dt • k1)
  let k3 := M.derivT (t1 + half_dt) (getV y i0 + half_dt • k2)
  let k4 := M.derivT t2 (getV y i0 + (2 * half_dt) • k3)
  let ynext := getV y i0 + (half_dt / 3) • (k1 + (2 : ℝ) • k2 + (2 : ℝ) • k3 + k4)
  (y.setD (i0 + 1) (M.normY normA normB ynext), k1)

/-- Embedding of `DynamicsSurrogate._one_backward_RK4_step` (indices on
the executed paths satisfy `i0 ≥ 3`, so the truncated `ℕ` subtractions
match the Python index arithmetic). -/
noncomputable def oneBackwardRK4 (M : DynModel) (normA normB : ℝ)
    (y : Array StateVec) (i0 : ℕ) : Array StateVec × StateVec :=
  let i_t := if i0 < 3 then i0 * 2 else i0 + 3
  let t1 := M.t i_t
  let t2 := if i0 ≤ 3 then M.t (i_t - 2) else M.t (i_t - 1)
  let half_dt := 0.5 * (t2 - t1)
  let k1 := M.derivT t1 (getV y i0)
  let k2 := M.derivT (t1 + half_dt) (getV y i0 + half_dt • k1)
  let k3 := M.derivT (t1 + half_dt) (getV y i0 + half_dt • k2)
  let k4 := M.derivT t2 (getV y i0 + (2 * half_dt) • k3)
  let ynext := getV y i0 + (half_dt / 3) • (k1 + (2 : ℝ) • k2 + (2 : ℝ) • k3 + k4)
  (y.setD (i0 - 1) (M.normY normA normB ynext), k1)

/-- Embedding of `DynamicsSurrogate._integrate_forward`: AB4 stepping from
row `i0` to the last row, consuming `self.diff_t[i0+3:]`. -/
noncomputable def integrateForward (M : DynModel) (normA normB : ℝ)
    (y : Array StateVec) (i0 : ℕ) (k_ab4 : List StateVec) (dt_ab4 : List ℝ) :
    Array StateVec :=
  ((List.range (M.L - 1 - (i0 + 3))).foldl
    (fun (st : StateVec × StateVec × StateVec × ℝ × ℝ × ℝ × Array StateVec) (i : ℕ) =>
      let k1 := st.1
      let k2 := st.2.1
      let k3 := st.2.2.1
      let dt1 := st.2.2.2.1
      let dt2 := st.2.2.2.2.1
      let dt3 := st.2.2.2.2.2.1
      let y := st.2.2.2.2.2.2
      let dt4 := diffT M (i0 + 3 + i)
      let i_output := i0 + i
      let k4 := M.derivIdx (i_output + 3) (getV y i_output)
      let ynext := getV y i_output + M.ab4dy k1 k2 k3 k4 dt1 dt2 dt3 dt4
      (k2, k3, k4, dt2, dt3, dt4,
       y.setD (i_output + 1) (M.normY normA normB ynext)))
    (k_ab4.getD 0 zeroV, k_ab4.getD 1 zeroV, k_ab4.getD 2 zeroV,
     dt_ab4.getD 0 0, dt_ab4.getD 1 0, dt_ab4.getD 2 0, y)).2.2.2.2.2.2

/-- Embedding of `DynamicsSurrogate._integrate_backward`: AB4 stepping
from row `i0` down to row 0 (`for i_output in range(i0)[::-1]`), with the
collapsed-step `dt_array` and the half-step-aware `node_index`. -/
noncomputable def integrateBackward (M : DynModel) (normA normB : ℝ)
    (y : Array StateVec) (i0 : ℕ) (k_ab4 : List StateVec) (dt_ab4 : List ℝ) :
    Array StateVec :=
  (((List.range i0).reverse).foldl
    (fun (st : StateVec × StateVec × StateVec × ℝ × ℝ × ℝ × Array StateVec)
        (i_output : ℕ) =>
      let k1 := st.1
      let k2 := st.2.1
      let k3 := st.2.2.1
      let dt1 := st.2.2.2.1
      let dt2 := st.2.2.2.2.1
      let dt3 := st.2.2.2.2.2.1
      let y := st.2.2.2.2.2.2
      let node_index := if i_output < 2 then 2 + 2 * i_output else i_output + 4
      let dt4 := dtArray M i_output
      let k4 := M.derivIdx node_index (getV y (i_output + 1))
      let ynext := getV y (i_output + 1) - M.ab4dy k1 k2 k3 k4 dt1 dt2 dt3 dt4
      (k2, k3, k4, dt2, dt3, dt4,
       y.setD i_output (M.normY normA normB ynext)))
    (k_ab4.getD 0 zeroV, k_ab4.getD 1 zeroV, k_ab4.getD 2 zeroV,
     dt_ab4.getD 0 0, dt_ab4.getD 1 0, dt_ab4.getD 2 0, y)).2.2.2.2.2.2

/-- The bootstrap-dispatch of `DynamicsSurrogate.__call__` (after
`_initialize`): forward-only from row 0, backward bootstrap for
`i0 > 2`, or forward bootstrap with a backward fill for `0 < i0 ≤ 2`. -/
noncomputable def dynIntegrate (M : DynModel) (normA normB : ℝ)
    (y0arr : Array StateVec) (i0 : ℕ) : Array StateVec :=
  if i0 = 0 then
    let r := initRK4 M normA normB y0arr
    integrateForward M normA normB r.2.2 3 r.1 r.2.1
  else if 2 < i0 then
    let s0 := oneBackwardRK4 M normA normB y0arr i0
    let s1 := oneBackwardRK4 M normA normB s0.1 (i0 - 1)
    let s2 := oneBackwardRK4 M normA normB s1.1 (i0 - 2)
    let k_ab4 := [s0.2, s1.2, s2.2]
    let dt_ab4 := ((List.range 3).map (fun j => dtArray M (i0 - 3 + j))).reverse
    let yb := integrateBackward M normA normB s2.1 (i0 - 3) k_ab4 dt_ab4
    let tmp_k := M.derivIdx i0 (getV yb (i0 - 3))
    let k_ab4x := [tmp_k, k_ab4.getD 2 zeroV, k_ab4.getD 1 zeroV]
    let dt_ab4x := dt_ab4.reverse
    integrateForward M normA normB yb i0 k_ab4x dt_ab4x
  else
    let s0 := oneForwardRK4 M normA normB y0arr i0
    let s1 := oneForwardRK4 M normA normB s0.1 (i0 + 1)
    let s2 := oneForwardRK4 M normA normB s1.1 (i0 + 2)
    let k_ab4 := [s0.2, s1.2, s2.2]
    let dt_ab4 := (List.range 3).map (fun j => dtArray M (i0 + j))
    let yf := integrateForward M normA normB s2.1 (i0 + 3) k_ab4 dt_ab4
    let tmp_k := M.derivIdx (i0 + 3) (getV yf (i0 + 3))
    let k_ab4x := [tmp_k, k_ab4.getD 2 zeroV, k_ab4.getD 1 zeroV]
    let dt_ab4x := dt_ab4.reverse
    integrateBackward M normA normB yf i0 k_ab4x dt_ab4x

/-- The errors `DynamicsSurrogate.__call__` raises directly:
both `t_ref` and `omega_ref` supplied; spin magnitude above 1.001; and a
failure propagated from `_get_t_ref`. -/
inductive DynCallError
  | bothRefs
  | spinMag
  | refFreq
deriving DecidableEq

/-- Embedding of `DynamicsSurrogate.__call__`: validation, optional
determination of `t_ref` from `omega_ref`, `_initialize`, the
three-branch bootstrap dispatch, and the final split of the state array
into `quat = y[:, :4].T`, `orbphase = y[:, 4]`, `chiA = y[:, 5:8]`,
`chiB = y[:, 8:]`. -/
noncomputable def dynCall (M : DynModel) (chiA0 chiB0 : Fin 3 → ℝ)
    (init_quat : Option (Fin 4 → ℝ)) (init_orbphase : ℝ)
    (t_ref omega_ref : Option ℝ) :
    Except DynCallError
      ((Fin 4 → Array ℝ) × Array ℝ × Array (Fin 3 → ℝ) × Array (Fin 3 → ℝ)) :=
  if t_ref.isSome ∧ omega_ref.isSome then Except.error DynCallError.bothRefs
  else
    let normA := Real.sqrt (chiA0 0 ^ 2 + chiA0 1 ^ 2 + chiA0 2 ^ 2)
    let normB := Real.sqrt (chiB0 0 ^ 2 + chiB0 1 ^ 2 + chiB0 2 ^ 2)
    if 1.001 < max normA normB then Except.error DynCallError.spinMag
    else
      match (match omega_ref with
        | some w =>
          match M.tRefOfOmega w with
          | Except.error _ => Except.error DynCallError.refFreq
          | Except.ok tr => Except.ok (some tr)
        | none => Except.ok t_ref) with
      | Except.error e => Except.error e
      | Except.ok tref =>
        let ini := initData M chiA0 chiB0 init_quat init_orbphase tref normA normB
        let y_of_t := dynIntegrate M normA normB ini.1 ini.2
        Except.ok
          (fun c => y_of_t.map (fun yv => yv ⟨c.val, by omega⟩),
           y_of_t.map (fun yv => yv 4),
           y_of_t.map (fun yv => fun c => yv ⟨5 + c.val, by omega⟩),
           y_of_t.map (fun yv => fun c => yv ⟨8 + c.val, by omega⟩))

theorem foldl_pred {σ α : Type _} (f : σ → α → σ) (P : σ → Prop)
    (hf : ∀ s a, P s → P (f s a)) (l : List α) (s : σ) (hs : P s) :
    P (l.foldl f s) := by
  induction l generalizing s with
  | nil => exact hs
  | cons a l ih => exact ih _ (hf s a hs)

theorem initData_size (M : DynModel) (chiA0 chiB0 : Fin 3 → ℝ)
    (init_quat : Option (Fin 4 → ℝ)) (init_orbphase : ℝ)
    (t_ref : Option ℝ) (normA normB : ℝ) :
    (initData M chiA0 chiB0 init_quat init_orbphase t_ref normA normB).1.size
      = M.L - 3 := by
  unfold initData
  cases t_ref <;> simp [Array.size_setD, Array.size_mkArray]

theorem initRK4_size (M : DynModel) (nA nB : ℝ) (y : Array StateVec) :
    (initRK4 M nA nB y).2.2.size = y.size := by
  unfold initRK4
  refine foldl_pred _
    (fun st : List StateVec × List ℝ × Array StateVec => st.2.2.size = y.size)
    ?_ _ _ rfl
  intro st i hst
  simpa [Array.size_setD] using hst

theorem oneForwardRK4_size (M : DynModel) (nA nB : ℝ) (y : Array StateVec)
    (i0 : ℕ) : (oneForwardRK4 M nA nB y i0).1.size = y.size := by
  unfold oneForwardRK4
  simp [Array.size_setD]

theorem oneBackwardRK4_size (M : DynModel) (nA nB : ℝ) (y : Array StateVec)
    (i0 : ℕ) : (oneBackwardRK4 M nA nB y i0).1.size = y.size := by
  unfold oneBackwardRK4
  simp [Array.size_setD]

theorem integrateForward_size (M : DynModel) (nA nB : ℝ) (y : Array StateVec)
    (i0 : ℕ) (ks : List StateVec) (dts : List ℝ) :
    (integrateForward M nA nB y i0 ks dts).size = y.size := by
  unfold integrateForward
  refine foldl_pred _
    (fun st : StateVec × StateVec × StateVec × ℝ × ℝ × ℝ × Array StateVec =>
      st.2.2.2.2.2.2.size = y.size) ?_ _ _ rfl
  intro st i hst
  simpa [Array.size_setD] using hst

theorem integrateBackward_size (M : DynModel) (nA nB : ℝ) (y : Array StateVec)
    (i0 : ℕ) (ks : List StateVec) (dts : List ℝ) :
    (integrateBackward M nA nB y i0 ks dts).size = y.size := by
  unfold integrateBackward
  refine foldl_pred _
    (fun st : StateVec × StateVec × StateVec × ℝ × ℝ × ℝ × Array StateVec =>
      st.2.2.2.2.2.2.size = y.size) ?_ _ _ rfl
  intro st i hst
  simpa [Array.size_setD] using hst

theorem dynIntegrate_size (M : DynModel) (nA nB : ℝ) (y : Array StateVec)
    (i0 : ℕ) : (dynIntegrate M nA nB y i0).size = y.size := by
  unfold dynIntegrate
  split_ifs <;>
    simp [integrateForward_size, integrateBackward_size, oneForwardRK4_size,
      oneBackwardRK4_size, initRK4_size]

/-- Claim C9: every successful dynamics evaluation returns time series of
length `len(t_ds) - 3` — all four quaternion component series, the
orbital phase, and both spin series — and the collapsed output grid has
that same length, sampling `[t 0, t 2, t 4, t 6, t 7, ...]` (the three
RK4 half-step nodes removed). -/
theorem dynCall_output_lengths (M : DynModel) (chiA0 chiB0 : Fin 3 → ℝ)
    (init_quat : Option (Fin 4 → ℝ)) (init_orbphase : ℝ)
    (t_ref omega_ref : Option ℝ)
    (out : (Fin 4 → Array ℝ) × Array ℝ × Array (Fin 3 → ℝ) × Array (Fin 3 → ℝ))
    (h6 : 6 ≤ M.L)
    (hok : dynCall M chiA0 chiB0 init_quat init_orbphase t_ref omega_ref
      = Except.ok out) :
    (∀ c : Fin 4, (out.1 c).size = M.L - 3) ∧
    out.2.1.size = M.L - 3 ∧
    out.2.2.1.size = M.L - 3 ∧
    out.2.2.2.size = M.L - 3 ∧
    (tds M).length = M.L - 3 ∧
    (∀ i : ℕ, i < 3 → (tds M).getD i 0 = M.t (2 * i)) ∧
    (∀ i : ℕ, 3 ≤ i → i < M.L - 3 → (tds M).getD i 0 = M.t (i + 3)) := by
  have htds1 : (tds M).length = M.L - 3 := by
    unfold tds
    simp only [List.length_append, List.length_map, List.length_range]
    omega
  have htds2 : ∀ i : ℕ, i < 3 → (tds M).getD i 0 = M.t (2 * i) := by
    intro i hi
    unfold tds
    interval_cases i <;> rfl
  have htds3 : ∀ i : ℕ, 3 ≤ i → i < M.L - 3 → (tds M).getD i 0 = M.t (i + 3) := by
    intro i h3 hi
    unfold tds
    rw [List.getD_append_right _ _ _ _ (by simpa using h3)]
    simp only [List.length_map, List.length_range]
    rw [List.getD_eq_getElem?_getD, List.getElem?_map,
      List.getElem?_range (by omega)]
    simp only [Option.map_some', Option.getD_some]
    congr 1
    omega
  unfold dynCall at hok
  dsimp only at hok
  split_ifs at hok with h1 h2
  rcases omega_ref with _ | w
  · dsimp only at hok
    have hT := Except.ok.inj hok
    subst hT
    refine ⟨fun c => ?_, ?_, ?_, ?_, htds1, htds2, htds3⟩ <;>
      simp [Array.size_map, dynIntegrate_size, initData_size]
  · dsimp only at hok
    rcases htr : M.tRefOfOmega w with e | tr <;> rw [htr] at hok <;>
      dsimp only at hok
    · simp at hok
    · have hT := Except.ok.inj hok
      subst hT
      refine ⟨fun c => ?_, ?_, ?_, ?_, htds1, htds2, htds3⟩ <;>
        simp [Array.size_map, dynIntegrate_size, initData_size]

/-- A concrete seven-node model with trivial externals, used to witness
C9. -/
noncomputable def dynModelEx : DynModel :=
  { t := fun i => (i : ℝ)
    L := 7
    derivIdx := fun _ _ => zeroV
    derivT := fun _ _ => zeroV
    normY := fun _ _ y => y
    ab4dy := fun _ _ _ _ _ _ _ _ => zeroV
    tRefOfOmega := fun _ => Except.ok 0 }

/-- Witness for C9: the seven-node model evaluated from the default
reference time returns successfully, and the claimed lengths hold. -/
theorem dynCall_output_lengths_witness :
    ∃ out, dynCall dynModelEx (fun _ => 0) (fun _ => 0) none 0 none none
        = Except.ok out ∧
      (∀ c : Fin 4, (out.1 c).size = dynModelEx.L - 3) ∧
      out.2.1.size = dynModelEx.L - 3 ∧
      (tds dynModelEx).length = dynModelEx.L - 3 := by
  have hex : ∃ out, dynCall dynModelEx (fun _ => 0) (fun _ => 0) none 0 none none
      = Except.ok out := by
    unfold dynCall
    rw [if_neg (by simp)]
    dsimp only
    rw [if_neg (by norm_num [Real.sqrt_zero])]
    exact ⟨_, rfl⟩
  obtain ⟨out, h⟩ := hex
  have hmain := dynCall_output_lengths dynModelEx (fun _ => 0) (fun _ => 0)
    none 0 none none out (by norm_num [dynModelEx]) h
  exact ⟨out, h, hmain.1, hmain.2.1, hmain.2.2.2.2.1⟩

end PrecSur
